import Mathlib

/-!
# Verification of the `emojis` crate core

Shallow embedding of the emoji lookup library: the `Emoji` record and the
operations of `src/lib.rs` (`get`, `skin_tones`, `with_skin_tone`, `iter`,
`Group::emojis`), the fuzzy search of `src/search.rs`, and the skin-tone
family construction of `generate/src/unicode.rs`.  The generated static
table (the `gen` module) is produced offline and is not part of the
sources, so the development is parameterised by the table, with the
build-time invariants of the generated data modelled from the
specification where a claim needs them.
-/

namespace Emojis

/-- The nine emoji groups (`Group`, re-exported by `lib.rs` from the
generated module and enumerated in `Group::iter`); the synthetic CLDR
`Component` group is excluded from the table entirely. -/
inductive Group where
  | SmileysAndEmotion
  | PeopleAndBody
  | AnimalsAndNature
  | FoodAndDrink
  | TravelAndPlaces
  | Activities
  | Objects
  | Symbols
  | Flags
deriving DecidableEq, Repr

/-- The 26 skin tones of `SkinTone` in `lib.rs` (identical list in
`generate/src/unicode.rs`), in declaration order. -/
inductive SkinTone where
  | Default
  | Light
  | MediumLight
  | Medium
  | MediumDark
  | Dark
  | LightAndMediumLight
  | LightAndMedium
  | LightAndMediumDark
  | LightAndDark
  | MediumLightAndLight
  | MediumLightAndMedium
  | MediumLightAndMediumDark
  | MediumLightAndDark
  | MediumAndLight
  | MediumAndMediumLight
  | MediumAndMediumDark
  | MediumAndDark
  | MediumDarkAndLight
  | MediumDarkAndMediumLight
  | MediumDarkAndMedium
  | MediumDarkAndDark
  | DarkAndLight
  | DarkAndMediumLight
  | DarkAndMedium
  | DarkAndMediumDark
deriving DecidableEq, Repr

/-- The declaration-order position of a skin tone: the order of the Rust
`enum SkinTone`, which is both the derived `Ord` used by the generator's
`partition_point` insertion and the fixed family enumeration order. -/
def toneIdx : SkinTone → Nat
  | .Default => 0
  | .Light => 1
  | .MediumLight => 2
  | .Medium => 3
  | .MediumDark => 4
  | .Dark => 5
  | .LightAndMediumLight => 6
  | .LightAndMedium => 7
  | .LightAndMediumDark => 8
  | .LightAndDark => 9
  | .MediumLightAndLight => 10
  | .MediumLightAndMedium => 11
  | .MediumLightAndMediumDark => 12
  | .MediumLightAndDark => 13
  | .MediumAndLight => 14
  | .MediumAndMediumLight => 15
  | .MediumAndMediumDark => 16
  | .MediumAndDark => 17
  | .MediumDarkAndLight => 18
  | .MediumDarkAndMediumLight => 19
  | .MediumDarkAndMedium => 20
  | .MediumDarkAndDark => 21
  | .DarkAndLight => 22
  | .DarkAndMediumLight => 23
  | .DarkAndMedium => 24
  | .DarkAndMediumDark => 25

/-- The fixed skin-tone enumeration order (declaration order of the Rust
`enum SkinTone`): the order in which the members of a family appear in the
table. -/
def skinToneOrder : List SkinTone :=
  [.Default, .Light, .MediumLight, .Medium, .MediumDark, .Dark,
   .LightAndMediumLight, .LightAndMedium, .LightAndMediumDark, .LightAndDark,
   .MediumLightAndLight, .MediumLightAndMedium, .MediumLightAndMediumDark,
   .MediumLightAndDark, .MediumAndLight, .MediumAndMediumLight,
   .MediumAndMediumDark, .MediumAndDark, .MediumDarkAndLight,
   .MediumDarkAndMediumLight, .MediumDarkAndMedium, .MediumDarkAndDark,
   .DarkAndLight, .DarkAndMediumLight, .DarkAndMedium, .DarkAndMediumDark]

/-- The `Emoji` record of `lib.rs`.  `skin_tone` is the optional
`(<id>, <n>, <skin_tone>)` triple: the table position of the default-tone
member, the family size, and this record's tone (the `u16`/`u8` indices are
modelled as `Nat`). -/
structure Emoji where
  emoji : String
  name : String
  unicode_version : Nat × Nat
  group : Group
  skin_tone : Option (Nat × Nat × SkinTone)
  aliases : Option (List String)
deriving DecidableEq, Repr

/-- `Emoji::skin_tone()`: project the tone out of the triple. -/
def skinToneOf (e : Emoji) : Option SkinTone :=
  e.skin_tone.map (fun x => x.2.2)

/-- `Emoji::skin_tones()` from `lib.rs`: for a record with skin-tone data
`(i, n, _)` the slice `EMOJIS[i..].iter().take(n)` of the static table,
otherwise `None`. -/
def skin_tones (table : List Emoji) (e : Emoji) : Option (List Emoji) :=
  e.skin_tone.map (fun x => (table.drop x.1).take x.2.1)

/-- `Emoji::with_skin_tone()` from `lib.rs`: linear scan of `skin_tones()`
for the member with the requested tone.  The source compares
`emoji.skin_tone().unwrap() == skin_tone`; the `unwrap` asserts that every
scanned member carries skin-tone data, which the table invariant
guarantees, so the comparison is modelled as `skinToneOf m == some t`. -/
def with_skin_tone (table : List Emoji) (e : Emoji) (t : SkinTone) : Option Emoji :=
  (skin_tones table e).bind (fun l => l.find? (fun m => skinToneOf m == some t))

/-- `iter()` from `lib.rs`: all table records whose skin tone
`matches!(…, Some(SkinTone::Default) | None)`. -/
def iter (table : List Emoji) : List Emoji :=
  table.filter (fun e =>
    match skinToneOf e with
    | some SkinTone.Default => true
    | none => true
    | _ => false)

/-- `Group::iter()` from `lib.rs`: the nine groups in the listed order. -/
def Group.iterList : List Group :=
  [.SmileysAndEmotion, .PeopleAndBody, .AnimalsAndNature, .FoodAndDrink,
   .TravelAndPlaces, .Activities, .Objects, .Symbols, .Flags]

/-- The `skip_while(|e| e.group != group).take_while(|e| e.group == group)`
combination of `Group::emojis()`, over an arbitrary record sequence. -/
def segment (l : List Emoji) (g : Group) : List Emoji :=
  (l.dropWhile (fun e => e.group != g)).takeWhile (fun e => e.group == g)

/-- `Group::emojis()` from `lib.rs`:
`iter().skip_while(|e| e.group != group).take_while(|e| e.group == group)`. -/
def Group.emojis (table : List Emoji) (g : Group) : List Emoji :=
  segment (iter table) g

/-! ## The unicode index map (modelled)

The static `gen::unicode::MAP` is generated offline and is not among the
sources; only its construction contract is specified.  It is modelled from
the spec: the table holds only fully-qualified records, and each record
contributes its own sequence plus every minimally/unqualified variation
sequence as keys, all mapping to the record's table position. -/

/-- Modelled from the spec: the key set of the generated unicode index map
(`gen::unicode::MAP`, absent from the sources).  Each table entry `i`
(a fully-qualified record paired with its qualification-variant sequences)
registers its own sequence and every variant sequence as keys for
position `i` (§3 Canonicalization, §4.2). -/
def unicodeKeys (entries : List (Emoji × List String)) : List (String × Nat) :=
  entries.enum.flatMap (fun p => (p.2.1.emoji, p.1) :: p.2.2.map (fun v => (v, p.1)))

/-- Modelled from the spec: exact-string resolution in the static map
(`MAP.get(s)`), realised as first-match lookup over the registered keys;
the build asserts the keys collide with no different position. -/
def lookupKey (keys : List (String × Nat)) (s : String) : Option Nat :=
  (keys.find? (fun kv => kv.1 == s)).map (fun kv => kv.2)

/-- The record component of the entry list: the static `EMOJIS` table. -/
def emojiTable (entries : List (Emoji × List String)) : List Emoji :=
  entries.map (fun p => p.1)

/-- `get()` from `lib.rs`: `MAP.get(s).map(|&i| &EMOJIS[i])`. -/
def get (entries : List (Emoji × List String)) (s : String) : Option Emoji :=
  (lookupKey (unicodeKeys entries) s).bind (fun i => (emojiTable entries)[i]?)

/-- Modelled from the spec (§4.2): the build-time assertion that no two
registered unicode keys are the same string (a duplicate key is a fatal
generation error, so the shipped map satisfies this). -/
abbrev KeysDistinct (entries : List (Emoji × List String)) : Prop :=
  ((unicodeKeys entries).map (fun kv => kv.1)).Nodup

theorem find?_key_eq {l : List (String × Nat)} (h : (l.map (fun kv => kv.1)).Nodup)
    {s : String} {i : Nat} (hm : (s, i) ∈ l) :
    l.find? (fun kv => kv.1 == s) = some (s, i) := by
  induction l with
  | nil => cases hm
  | cons a t ih =>
    rcases List.mem_cons.mp hm with rfl | hmt
    · simp [List.find?]
    · have hnotin : a.1 ∉ t.map (fun kv => kv.1) := (List.nodup_cons.mp h).1
      have ha : a.1 ≠ s := by
        intro hs
        exact hnotin (by rw [hs]; exact List.mem_map.mpr ⟨(s, i), hmt, rfl⟩)
      have hfa : (a.1 == s) = false := by simpa using ha
      simp only [List.find?, hfa]
      exact ih (List.nodup_cons.mp h).2 hmt

theorem mem_unicodeKeys {entries : List (Emoji × List String)} {i : Nat}
    {e : Emoji} {vars : List String} (hi : entries[i]? = some (e, vars))
    {s : String} (hs : s = e.emoji ∨ s ∈ vars) :
    (s, i) ∈ unicodeKeys entries := by
  refine List.mem_flatMap.mpr ⟨(i, (e, vars)), List.mem_enum_iff_getElem?.mpr hi, ?_⟩
  rcases hs with rfl | hv
  · exact List.mem_cons_self _ _
  · exact List.mem_cons_of_mem _ (List.mem_map.mpr ⟨s, hv, rfl⟩)

theorem lookupKey_of_entry {entries : List (Emoji × List String)}
    (hk : KeysDistinct entries) {i : Nat} {e : Emoji} {vars : List String}
    (hi : entries[i]? = some (e, vars)) {s : String}
    (hs : s = e.emoji ∨ s ∈ vars) :
    lookupKey (unicodeKeys entries) s = some i := by
  unfold lookupKey
  rw [find?_key_eq hk (mem_unicodeKeys hi hs)]
  rfl

theorem get_of_entry {entries : List (Emoji × List String)}
    (hk : KeysDistinct entries) {i : Nat} {e : Emoji} {vars : List String}
    (hi : entries[i]? = some (e, vars)) {s : String}
    (hs : s = e.emoji ∨ s ∈ vars) :
    get entries s = some e := by
  unfold get
  rw [lookupKey_of_entry hk hi hs]
  simp [emojiTable, hi]

/-- Claim C1: for every table position `i`, looking up the record's own
sequence resolves to position `i` and `get` returns exactly that record
(given the build-time distinct-key assertion of the generated map). -/
theorem c1_get_roundtrip (entries : List (Emoji × List String))
    (hk : KeysDistinct entries) (i : Nat) (e : Emoji) (vars : List String)
    (hi : entries[i]? = some (e, vars)) :
    lookupKey (unicodeKeys entries) e.emoji = some i ∧
      get entries e.emoji = some e :=
  ⟨lookupKey_of_entry hk hi (Or.inl rfl), get_of_entry hk hi (Or.inl rfl)⟩

/-- A sample fully-qualified record with no skin-tone data. -/
def rocketE : Emoji :=
  { emoji := "🚀", name := "rocket", unicode_version := (6, 0),
    group := Group.TravelAndPlaces, skin_tone := none,
    aliases := some ["rocket"] }

/-- A sample record whose fully-qualified sequence carries a trailing
variation selector; its unqualified form is a registered variant key. -/
def chipmunkE : Emoji :=
  { emoji := "🐿️", name := "chipmunk", unicode_version := (0, 7),
    group := Group.AnimalsAndNature, skin_tone := none,
    aliases := some ["chipmunk"] }

/-- A sample entry list: records paired with their variant sequences. -/
def sampleEntries : List (Emoji × List String) :=
  [(rocketE, []), (chipmunkE, ["🐿"])]

/-- Witness for C1 on a concrete two-entry table. -/
theorem c1_get_roundtrip_witness :
    KeysDistinct sampleEntries ∧
    sampleEntries[1]? = some (chipmunkE, ["🐿"]) ∧
    (lookupKey (unicodeKeys sampleEntries) chipmunkE.emoji = some 1 ∧
      get sampleEntries chipmunkE.emoji = some chipmunkE) :=
  ⟨by decide, by decide, c1_get_roundtrip sampleEntries (by decide) 1 chipmunkE ["🐿"] (by decide)⟩

/-- Claim C2: looking up a minimally-qualified or unqualified variant
returns the same record as looking up the fully-qualified sequence, and the
returned record's sequence is the fully-qualified one. -/
theorem c2_get_variation (entries : List (Emoji × List String))
    (hk : KeysDistinct entries) (i : Nat) (e : Emoji) (vars : List String)
    (v : String) (hi : entries[i]? = some (e, vars)) (hv : v ∈ vars) :
    get entries v = get entries e.emoji ∧
      (get entries v).map (fun r => r.emoji) = some e.emoji := by
  have h1 := get_of_entry hk hi (Or.inr hv)
  have h2 := get_of_entry hk hi (Or.inl rfl)
  rw [h1, h2]
  simp

/-- Witness for C2: the unqualified chipmunk sequence resolves to the same
record as the fully-qualified one. -/
theorem c2_get_variation_witness :
    KeysDistinct sampleEntries ∧
    sampleEntries[1]? = some (chipmunkE, ["🐿"]) ∧
    "🐿" ∈ ["🐿"] ∧
    (get sampleEntries "🐿" = get sampleEntries chipmunkE.emoji ∧
      (get sampleEntries "🐿").map (fun r => r.emoji) = some chipmunkE.emoji) :=
  ⟨by decide, by decide, by decide,
    c2_get_variation sampleEntries (by decide) 1 chipmunkE ["🐿"] "🐿" (by decide) (by decide)⟩

/-! ## Skin-tone families (table invariant modelled from the spec) -/

/-- Modelled from the spec (§3 invariants; the generated table is absent
from the sources): for every record with skin-tone data `(b, n, _)`, the
family size `n` is 6 or 26, the record lies inside `[b, b + n)`, and for
every `k < n` the record at position `b + k` exists and carries skin-tone
data `(b, n, skinToneOrder[k])` — each family is a contiguous run of `n`
records starting at the default member `b`, in the fixed tone enumeration
order. -/
def checkFamilies (table : List Emoji) : Bool :=
  table.enum.all (fun p =>
    match p.2.skin_tone with
    | none => true
    | some (b, n, _) =>
      decide (n = 6 ∨ n = 26) && decide (b ≤ p.1) && decide (p.1 < b + n) &&
      (List.range n).all (fun k =>
        decide ((table[b + k]?).map (fun e2 => e2.skin_tone) =
          some (some (b, n, skinToneOrder.getD k SkinTone.Default)))))

theorem checkFamilies_spec {table : List Emoji} (h : checkFamilies table = true)
    {i : Nat} {e : Emoji} (hi : table[i]? = some e)
    {b n : Nat} {t : SkinTone} (hst : e.skin_tone = some (b, n, t)) :
    (n = 6 ∨ n = 26) ∧ b ≤ i ∧ i < b + n ∧
      ∀ k, k < n → ∃ e2, table[b + k]? = some e2 ∧
        e2.skin_tone = some (b, n, skinToneOrder.getD k SkinTone.Default) := by
  have hmem : (i, e) ∈ table.enum := List.mem_enum_iff_getElem?.mpr hi
  have := (List.all_eq_true.mp h) (i, e) hmem
  simp only [hst] at this
  have h1 := this
  rw [Bool.and_eq_true, Bool.and_eq_true, Bool.and_eq_true] at h1
  obtain ⟨⟨⟨ha, hb⟩, hc⟩, hd⟩ := h1
  refine ⟨of_decide_eq_true ha, of_decide_eq_true hb, of_decide_eq_true hc, ?_⟩
  intro k hk
  have := (List.all_eq_true.mp hd) k (List.mem_range.mpr hk)
  have h2 := of_decide_eq_true this
  rcases Option.map_eq_some'.mp h2 with ⟨e2, he2, hsk⟩
  exact ⟨e2, he2, hsk⟩

theorem toneIdx_getD :
    ∀ k : Fin 26, toneIdx (skinToneOrder.getD k.val SkinTone.Default) = k.val := by
  decide

/-- The first 26 entries of the tone enumeration are pairwise distinct. -/
theorem skinToneOrder_getD_inj {j k : Nat} (hj : j < 26) (hk : k < 26)
    (h : skinToneOrder.getD j SkinTone.Default = skinToneOrder.getD k SkinTone.Default) :
    j = k := by
  have h1 : toneIdx (skinToneOrder.getD j SkinTone.Default) = j := toneIdx_getD ⟨j, hj⟩
  have h2 : toneIdx (skinToneOrder.getD k SkinTone.Default) = k := toneIdx_getD ⟨k, hk⟩
  rw [h] at h1
  omega

/-- `find?` returns the element at the first position where the predicate
holds. -/
theorem find?_eq_of_first {α : Type} {l : List α} {p : α → Bool} {k : Nat} {x : α}
    (hk : l[k]? = some x) (hx : p x = true)
    (hbefore : ∀ j, j < k → ∀ y, l[j]? = some y → p y = false) :
    l.find? p = some x := by
  induction l generalizing k with
  | nil => simp at hk
  | cons a t ih =>
    match k with
    | 0 =>
      simp only [List.getElem?_cons_zero, Option.some_inj] at hk
      subst hk
      simp [List.find?_cons, hx]
    | k + 1 =>
      have ha : p a = false := hbefore 0 (Nat.succ_pos _) a (by simp)
      simp only [List.find?_cons, ha]
      exact ih (by simpa using hk)
        (fun j hj y hy => hbefore (j + 1) (Nat.succ_lt_succ hj) y (by simpa using hy))

/-- Claim C3: for a record with a skin-tone family, `skin_tones` returns
the finite sequence of exactly `family_size` (6 or 26) contiguous table
records starting at `base_index`; for a record without a skin-tone
dimension it returns none. -/
theorem c3_skin_tones (table : List Emoji) (hwf : checkFamilies table = true)
    (i : Nat) (e : Emoji) (hi : table[i]? = some e) :
    (∀ b n t, e.skin_tone = some (b, n, t) →
      ∃ l, skin_tones table e = some l ∧ l.length = n ∧ (n = 6 ∨ n = 26) ∧
        ∀ k, k < n → l[k]? = table[b + k]?) ∧
    (e.skin_tone = none → skin_tones table e = none) := by
  constructor
  · intro b n t hst
    obtain ⟨hn, _, _, hfam⟩ := checkFamilies_spec hwf hi hst
    have hlen : b + n ≤ table.length := by
      have hn0 : 0 < n := by rcases hn with rfl | rfl <;> omega
      obtain ⟨e2, he2, _⟩ := hfam (n - 1) (by omega)
      have := (List.getElem?_eq_some_iff.mp he2).1
      omega
    refine ⟨(table.drop b).take n, ?_, ?_, hn, ?_⟩
    · simp [skin_tones, hst]
    · simp only [List.length_take, List.length_drop]
      omega
    · intro k hk
      rw [List.getElem?_take, if_pos hk, List.getElem?_drop]
  · intro h
    simp [skin_tones, h]

/-- Claim C4: for a family member `e` and every tone in its family,
`with_skin_tone` returns the unique family member carrying that tone, and
composing through the Default member recovers the same member; for a
record without a skin-tone dimension `with_skin_tone` is always none. -/
theorem c4_with_skin_tone (table : List Emoji) (hwf : checkFamilies table = true)
    (i : Nat) (e : Emoji) (hi : table[i]? = some e) :
    (∀ b n t, e.skin_tone = some (b, n, t) →
      ∀ k, k < n →
        ∃ e2, table[b + k]? = some e2 ∧
          with_skin_tone table e (skinToneOrder.getD k SkinTone.Default) = some e2 ∧
          skinToneOf e2 = some (skinToneOrder.getD k SkinTone.Default) ∧
          (∀ j e3, j < n → table[b + j]? = some e3 →
            skinToneOf e3 = some (skinToneOrder.getD k SkinTone.Default) → j = k) ∧
          (with_skin_tone table e SkinTone.Default).bind
            (fun d => with_skin_tone table d (skinToneOrder.getD k SkinTone.Default)) =
              some e2) ∧
    (∀ t, e.skin_tone = none → with_skin_tone table e t = none) := by
  have key : ∀ (i2 : Nat) (e4 : Emoji), table[i2]? = some e4 →
      ∀ b n t, e4.skin_tone = some (b, n, t) → ∀ k, k < n →
      ∃ e2, table[b + k]? = some e2 ∧
        e2.skin_tone = some (b, n, skinToneOrder.getD k SkinTone.Default) ∧
        with_skin_tone table e4 (skinToneOrder.getD k SkinTone.Default) = some e2 := by
    intro i2 e4 hi2 b n t hst k hk
    obtain ⟨hn, _, _, hfam⟩ := checkFamilies_spec hwf hi2 hst
    obtain ⟨e2, he2, hsk2⟩ := hfam k hk
    have hn26 : n ≤ 26 := by rcases hn with rfl | rfl <;> omega
    refine ⟨e2, he2, hsk2, ?_⟩
    have hl : ∀ m, m < n → ((table.drop b).take n)[m]? = table[b + m]? := by
      intro m hm
      rw [List.getElem?_take, if_pos hm, List.getElem?_drop]
    unfold with_skin_tone
    rw [show skin_tones table e4 = some ((table.drop b).take n) by
      simp [skin_tones, hst]]
    rw [Option.some_bind]
    refine find?_eq_of_first (x := e2) (k := k) ?_ ?_ ?_
    · rw [hl k hk, he2]
    · simp [skinToneOf, hsk2]
    · intro j hj y hy
      have hjn : j < n := hj.trans hk
      obtain ⟨e3, he3, hsk3⟩ := hfam j hjn
      rw [hl j hjn, he3] at hy
      cases hy
      have hne : skinToneOrder.getD j SkinTone.Default ≠
          skinToneOrder.getD k SkinTone.Default := by
        intro hEq
        have := skinToneOrder_getD_inj (by omega) (by omega) hEq
        omega
      have hys : skinToneOf y = some (skinToneOrder.getD j SkinTone.Default) := by
        simp [skinToneOf, hsk3]
      rw [hys]
      exact beq_eq_false_iff_ne.mpr (fun hEq => hne (Option.some_inj.mp hEq))
  constructor
  · intro b n t hst k hk
    obtain ⟨hn, _, _, hfam⟩ := checkFamilies_spec hwf hi hst
    have hn26 : n ≤ 26 := by rcases hn with rfl | rfl <;> omega
    have hn0 : 0 < n := by rcases hn with rfl | rfl <;> omega
    obtain ⟨e2, he2, hsk2, hwith⟩ := key i e hi b n t hst k hk
    refine ⟨e2, he2, hwith, by simp [skinToneOf, hsk2], ?_, ?_⟩
    · intro j e3 hj he3 hsk3
      obtain ⟨e5, he5, hsk5⟩ := hfam j hj
      rw [he3] at he5
      cases he5
      have := skinToneOrder_getD_inj (j := j) (k := k) (by omega) (by omega) (by
        simp only [skinToneOf, hsk5, Option.map_some] at hsk3
        exact Option.some_inj.mp hsk3)
      exact this
    · obtain ⟨d, hd, hskd, hwd⟩ := key i e hi b n t hst 0 hn0
      have h0 : skinToneOrder.getD 0 SkinTone.Default = SkinTone.Default := rfl
      rw [h0] at hwd hskd
      rw [hwd]
      rw [Option.some_bind]
      have hb0 : b + 0 = b := by omega
      rw [hb0] at hd
      obtain ⟨e6, he6, _, hw6⟩ := key b d hd b n SkinTone.Default hskd k hk
      rw [he2] at he6
      cases he6
      exact hw6
  · intro t h
    simp [with_skin_tone, skin_tones, h]

/-- A sample skin-tone family member: raising hands with the given tone,
member of the 6-record family starting at position 0. -/
def rh (s : String) (t : SkinTone) : Emoji :=
  { emoji := s, name := "raising hands", unicode_version := (6, 0),
    group := Group.PeopleAndBody, skin_tone := some (0, 6, t),
    aliases := some ["raised_hands"] }

/-- A sample table: one 6-member skin-tone family followed by a record
with no skin-tone dimension. -/
def toneTable : List Emoji :=
  [rh "🙌" SkinTone.Default, rh "🙌🏻" SkinTone.Light,
   rh "🙌🏼" SkinTone.MediumLight, rh "🙌🏽" SkinTone.Medium,
   rh "🙌🏾" SkinTone.MediumDark, rh "🙌🏿" SkinTone.Dark, rocketE]

/-- Witness for C3 on the concrete sample family. -/
theorem c3_skin_tones_witness :
    checkFamilies toneTable = true ∧
    toneTable[2]? = some (rh "🙌🏼" SkinTone.MediumLight) ∧
    ((∀ b n t, (rh "🙌🏼" SkinTone.MediumLight).skin_tone = some (b, n, t) →
      ∃ l, skin_tones toneTable (rh "🙌🏼" SkinTone.MediumLight) = some l ∧
        l.length = n ∧ (n = 6 ∨ n = 26) ∧
        ∀ k, k < n → l[k]? = toneTable[b + k]?) ∧
    ((rh "🙌🏼" SkinTone.MediumLight).skin_tone = none →
      skin_tones toneTable (rh "🙌🏼" SkinTone.MediumLight) = none)) :=
  ⟨by decide, by decide,
    c3_skin_tones toneTable (by decide) 2 (rh "🙌🏼" SkinTone.MediumLight) (by decide)⟩

/-- Witness for C4 on the concrete sample family. -/
theorem c4_with_skin_tone_witness :
    checkFamilies toneTable = true ∧
    toneTable[2]? = some (rh "🙌🏼" SkinTone.MediumLight) ∧
    ((∀ b n t, (rh "🙌🏼" SkinTone.MediumLight).skin_tone = some (b, n, t) →
      ∀ k, k < n →
        ∃ e2, toneTable[b + k]? = some e2 ∧
          with_skin_tone toneTable (rh "🙌🏼" SkinTone.MediumLight)
            (skinToneOrder.getD k SkinTone.Default) = some e2 ∧
          skinToneOf e2 = some (skinToneOrder.getD k SkinTone.Default) ∧
          (∀ j e3, j < n → toneTable[b + j]? = some e3 →
            skinToneOf e3 = some (skinToneOrder.getD k SkinTone.Default) → j = k) ∧
          (with_skin_tone toneTable (rh "🙌🏼" SkinTone.MediumLight) SkinTone.Default).bind
            (fun d => with_skin_tone toneTable d (skinToneOrder.getD k SkinTone.Default)) =
              some e2) ∧
    (∀ t, (rh "🙌🏼" SkinTone.MediumLight).skin_tone = none →
      with_skin_tone toneTable (rh "🙌🏼" SkinTone.MediumLight) t = none)) :=
  ⟨by decide, by decide,
    c4_with_skin_tone toneTable (by decide) 2 (rh "🙌🏼" SkinTone.MediumLight) (by decide)⟩

/-! ## Group iteration (C9) -/

/-- The position of a group in the `Group::iter()` order. -/
def gIdx : Group → Nat
  | .SmileysAndEmotion => 0
  | .PeopleAndBody => 1
  | .AnimalsAndNature => 2
  | .FoodAndDrink => 3
  | .TravelAndPlaces => 4
  | .Activities => 5
  | .Objects => 6
  | .Symbols => 7
  | .Flags => 8

/-- Modelled from the spec (§3: table order follows the CLDR group order,
the generated table being absent from the sources): the default iteration
lists records with groups in nondecreasing `Group::iter()` order, i.e.
records of one group are contiguous. -/
abbrev GroupsOrdered (l : List Emoji) : Prop :=
  l.Pairwise (fun a b => gIdx a.group ≤ gIdx b.group)

theorem segment_eq_takeWhile {l : List Emoji} {g : Group}
    (hne : ∀ x ∈ l.dropWhile (fun e => e.group == g), x.group ≠ g) :
    segment l g = l.takeWhile (fun e => e.group == g) := by
  cases l with
  | nil => rfl
  | cons a t =>
    by_cases hag : a.group = g
    · simp [segment, List.dropWhile_cons, List.takeWhile_cons, hag]
    · have hd : (a :: t).dropWhile (fun e => e.group == g) = a :: t := by
        simp [List.dropWhile_cons, hag]
      rw [hd] at hne
      have h2 : (a :: t).dropWhile (fun e => e.group != g) = [] :=
        List.dropWhile_eq_nil_iff.mpr (fun x hx => by simpa using hne x hx)
      simp [segment, h2, List.takeWhile_cons, hag]

theorem segment_append_of_ne {xs ys : List Emoji} {g2 : Group}
    (h : ∀ x ∈ xs, x.group ≠ g2) :
    segment (xs ++ ys) g2 = segment ys g2 := by
  unfold segment
  have hxs : xs.dropWhile (fun e => e.group != g2) = [] :=
    List.dropWhile_eq_nil_iff.mpr (fun x hx => by simpa using h x hx)
  rw [List.dropWhile_append, hxs]
  simp

theorem dropWhile_group_ne {g : Group} {ks2 : List Group} :
    ∀ {l : List Emoji},
      l.Pairwise (fun a b => gIdx a.group ≤ gIdx b.group) →
      (∀ x ∈ l, x.group ∈ g :: ks2) →
      (∀ g2 ∈ ks2, gIdx g < gIdx g2) →
      ∀ x ∈ l.dropWhile (fun e => e.group == g), x.group ≠ g := by
  intro l
  induction l with
  | nil => intro _ _ _ x hx; simp at hx
  | cons a t ih =>
    intro hord hmem hmin x hx
    by_cases hag : a.group = g
    · rw [List.dropWhile_cons, if_pos (by simpa using hag)] at hx
      exact ih (List.pairwise_cons.mp hord).2
        (fun y hy => hmem y (List.mem_cons_of_mem _ hy)) hmin x hx
    · rw [List.dropWhile_cons, if_neg (by simpa using hag)] at hx
      have hagt : gIdx g < gIdx a.group := by
        rcases List.mem_cons.mp (hmem a (List.mem_cons_self _ _)) with h | h
        · exact absurd h hag
        · exact hmin _ h
      rcases List.mem_cons.mp hx with rfl | hxt
      · exact hag
      · have := (List.pairwise_cons.mp hord).1 x hxt
        intro hxg
        rw [hxg] at this
        omega

theorem flatten_segments :
    ∀ (ks : List Group) (l : List Emoji),
      l.Pairwise (fun a b => gIdx a.group ≤ gIdx b.group) →
      (∀ x ∈ l, x.group ∈ ks) →
      ks.Pairwise (fun a b => gIdx a < gIdx b) →
      (ks.map (fun g => segment l g)).flatten = l := by
  intro ks
  induction ks with
  | nil =>
    intro l _ hmem _
    cases l with
    | nil => rfl
    | cons a t => exact absurd (hmem a (List.mem_cons_self _ _)) (by simp)
  | cons g ks2 ih =>
    intro l hord hmem hks
    have hmin : ∀ g2 ∈ ks2, gIdx g < gIdx g2 := (List.pairwise_cons.mp hks).1
    have hAB : l.takeWhile (fun e => e.group == g) ++
        l.dropWhile (fun e => e.group == g) = l :=
      List.takeWhile_append_dropWhile _ _
    have hAgrp : ∀ x ∈ l.takeWhile (fun e => e.group == g), x.group = g :=
      fun x hx => by simpa using List.mem_takeWhile_imp hx
    have hBgrp : ∀ x ∈ l.dropWhile (fun e => e.group == g), x.group ≠ g :=
      dropWhile_group_ne hord hmem hmin
    have hseg : segment l g = l.takeWhile (fun e => e.group == g) :=
      segment_eq_takeWhile hBgrp
    have hBmem : ∀ x ∈ l.dropWhile (fun e => e.group == g), x.group ∈ ks2 := by
      intro x hx
      have h1 := hmem x ((List.dropWhile_sublist _).mem hx)
      rcases List.mem_cons.mp h1 with h | h
      · exact absurd h (hBgrp x hx)
      · exact h
    have hBord : (l.dropWhile (fun e => e.group == g)).Pairwise
        (fun a b => gIdx a.group ≤ gIdx b.group) :=
      List.Pairwise.sublist (List.dropWhile_sublist _) hord
    have hothers : ∀ g2 ∈ ks2, segment l g2 =
        segment (l.dropWhile (fun e => e.group == g)) g2 := by
      intro g2 hg2
      conv =>
        lhs
        rw [← hAB]
      refine segment_append_of_ne ?_
      intro x hx hxg
      rw [hAgrp x hx] at hxg
      have hlt := hmin g2 hg2
      rw [hxg] at hlt
      omega
    calc ((g :: ks2).map (fun g2 => segment l g2)).flatten
        = segment l g ++ (ks2.map (fun g2 => segment l g2)).flatten := by simp
      _ = l.takeWhile (fun e => e.group == g) ++
          (ks2.map (fun g2 => segment (l.dropWhile (fun e => e.group == g)) g2)).flatten := by
          rw [hseg, List.map_congr_left hothers]
      _ = l.takeWhile (fun e => e.group == g) ++
          l.dropWhile (fun e => e.group == g) := by
          rw [ih _ hBord hBmem (List.pairwise_cons.mp hks).2]
      _ = l := hAB

/-- Claim C9: concatenating `Group::emojis()` over `Group::iter()` order is
exactly `iter()` — group iteration is an order-preserving partition of the
default iteration (given the spec-modelled group-contiguity of the
generated table). -/
theorem c9_group_partition (table : List Emoji)
    (hord : GroupsOrdered (iter table)) :
    ((Group.iterList).map (fun g => Group.emojis table g)).flatten = iter table := by
  have h1 : ∀ g : Group, g ∈ Group.iterList := by
    intro g
    cases g <;> decide
  have h2 : (Group.iterList).Pairwise (fun a b => gIdx a < gIdx b) := by decide
  exact flatten_segments Group.iterList (iter table) hord (fun x _ => h1 x.group) h2

/-- A sample record in the Smileys group. -/
def grinE : Emoji :=
  { emoji := "😀", name := "grinning face", unicode_version := (6, 1),
    group := Group.SmileysAndEmotion, skin_tone := none,
    aliases := some ["grinning"] }

/-- Witness for C9 on a concrete ordered two-group table. -/
theorem c9_group_partition_witness :
    GroupsOrdered (iter [grinE, rocketE]) ∧
    ((Group.iterList).map (fun g => Group.emojis [grinE, rocketE] g)).flatten =
      iter [grinE, rocketE] :=
  ⟨by decide, c9_group_partition [grinE, rocketE] (by decide)⟩

/-! ## Fuzzy search (src/search.rs)

`search.rs` scores every record against the query with `strsim::jaro`
(an external crate, not among the sources), boosts the score ×2 when the
candidate string starts with the query, keeps scores strictly above 0.75,
and sorts by the key `(Reverse(score), id)` where `id` is the record's
table position.  The `f64` scores are modelled as exact rationals and the
external `jaro` metric as a parameter. -/

/-- Rust `thing.starts_with(query)`: the query is a prefix of the
candidate, modelled at the character level (`String.startsWith` of the
standard library is equivalent but does not reduce in the kernel). -/
def startsWithB (thing query : String) : Bool :=
  query.data.isPrefixOf thing.data

theorem startsWithB_self (s : String) : startsWithB s s = true := by
  simp [startsWithB, List.isPrefixOf_iff_prefix]

/-- `similarity()` from `search.rs`: the Jaro similarity of candidate and
query, multiplied by 2 when the candidate starts with the query. -/
def similarity (jaro : String → String → ℚ) (thing query : String) : ℚ :=
  (if startsWithB thing query then 2 else 1) * jaro thing query

/-- The maximal score computed inside `emoji_score()`: the maximum of the
similarity of the record's name and of every shortcode alias (the
`scores.into_iter().max().unwrap()` of a nonempty vector, as a fold). -/
def emojiScoreValue (jaro : String → String → ℚ) (e : Emoji) (query : String) : ℚ :=
  ((e.aliases.getD []).map (fun a => similarity jaro a query)).foldl max
    (similarity jaro e.name query)

/-- `emoji_score()` from `search.rs`: the maximal score when strictly
above the 0.75 threshold, none otherwise. -/
def emoji_score (jaro : String → String → ℚ) (e : Emoji) (query : String) : Option ℚ :=
  if emojiScoreValue jaro e query > 3 / 4 then some (emojiScoreValue jaro e query)
  else none

/-- The scored candidate list built by `search()`: surviving records with
their table position (the generated `id` field) and score, in table
order. -/
def searchCandidates (jaro : String → String → ℚ) (table : List Emoji)
    (query : String) : List (Nat × Emoji × ℚ) :=
  table.enum.filterMap
    (fun p => (emoji_score jaro p.2 query).map (fun s => (p.1, p.2, s)))

/-- The `sort_by_key(|(emoji, score)| (Reverse(*score), emoji.id))` order:
ascending in the key, i.e. descending score with ties broken by ascending
table position. -/
def searchKeyLe (a b : Nat × Emoji × ℚ) : Bool :=
  decide (b.2.2 < a.2.2) || (decide (a.2.2 = b.2.2) && decide (a.1 ≤ b.1))

/-- The strict version of the sort key order: strictly greater score, or
equal score and strictly smaller table position. -/
def searchKeyLt (a b : Nat × Emoji × ℚ) : Prop :=
  b.2.2 < a.2.2 ∨ (a.2.2 = b.2.2 ∧ a.1 < b.1)

/-- The sorted scored list of `search()`. -/
def searchSorted (jaro : String → String → ℚ) (table : List Emoji)
    (query : String) : List (Nat × Emoji × ℚ) :=
  (searchCandidates jaro table query).mergeSort searchKeyLe

/-- `search()` from `search.rs`: the surviving records, best score first. -/
def search (jaro : String → String → ℚ) (table : List Emoji)
    (query : String) : List Emoji :=
  (searchSorted jaro table query).map (fun p => p.2.1)

theorem searchKeyLe_trans (a b c : Nat × Emoji × ℚ)
    (h1 : searchKeyLe a b = true) (h2 : searchKeyLe b c = true) :
    searchKeyLe a c = true := by
  simp only [searchKeyLe, Bool.or_eq_true, Bool.and_eq_true, decide_eq_true_eq] at h1 h2 ⊢
  rcases h1 with h1 | ⟨h1e, h1i⟩ <;> rcases h2 with h2 | ⟨h2e, h2i⟩
  · exact Or.inl (h2.trans h1)
  · exact Or.inl (by rw [← h2e]; exact h1)
  · exact Or.inl (by rw [h1e]; exact h2)
  · exact Or.inr ⟨h1e.trans h2e, h1i.trans h2i⟩

theorem searchKeyLe_total (a b : Nat × Emoji × ℚ) :
    (searchKeyLe a b || searchKeyLe b a) = true := by
  simp only [searchKeyLe, Bool.or_eq_true, Bool.and_eq_true, decide_eq_true_eq]
  rcases lt_trichotomy a.2.2 b.2.2 with h | h | h
  · exact Or.inr (Or.inl h)
  · rcases Nat.le_total a.1 b.1 with hi | hi
    · exact Or.inl (Or.inr ⟨h, hi⟩)
    · exact Or.inr (Or.inr ⟨h.symm, hi⟩)
  · exact Or.inl (Or.inl h)

theorem enum_pairwise_fst (l : List Emoji) :
    l.enum.Pairwise (fun a b => a.1 < b.1) := by
  rw [List.pairwise_iff_getElem]
  intro i j hi hj hij
  have hi2 : i < l.length := by simpa using hi
  have hj2 : j < l.length := by simpa using hj
  rw [List.getElem_enum, List.getElem_enum]
  exact hij

theorem searchCandidates_pairwise_fst (jaro : String → String → ℚ)
    (table : List Emoji) (query : String) :
    (searchCandidates jaro table query).Pairwise (fun a b => a.1 < b.1) := by
  unfold searchCandidates
  rw [List.pairwise_filterMap]
  refine (enum_pairwise_fst table).imp ?_
  intro a b hab x hx y hy
  rcases Option.map_eq_some'.mp hx with ⟨s, _, rfl⟩
  rcases Option.map_eq_some'.mp hy with ⟨s2, _, rfl⟩
  exact hab

theorem mem_searchCandidates {jaro : String → String → ℚ} {table : List Emoji}
    {query : String} {p : Nat × Emoji × ℚ} :
    p ∈ searchCandidates jaro table query ↔
      table[p.1]? = some p.2.1 ∧ emojiScoreValue jaro p.2.1 query > 3 / 4 ∧
        p.2.2 = emojiScoreValue jaro p.2.1 query := by
  unfold searchCandidates
  rw [List.mem_filterMap]
  constructor
  · rintro ⟨a, ha, hfa⟩
    rcases Option.map_eq_some'.mp hfa with ⟨s, hs, rfl⟩
    unfold emoji_score at hs
    split at hs
    · rcases Option.some_inj.mp hs with rfl
      refine ⟨?_, by assumption, rfl⟩
      exact List.mem_enum_iff_getElem?.mp ha
    · cases hs
  · rintro ⟨hget, hgt, hscore⟩
    refine ⟨(p.1, p.2.1), List.mem_enum_iff_getElem?.mpr hget, ?_⟩
    unfold emoji_score
    rw [if_pos hgt]
    simp [← hscore]

theorem mem_search {jaro : String → String → ℚ} {table : List Emoji}
    {query : String} {e : Emoji} :
    e ∈ search jaro table query ↔
      ∃ p, p ∈ searchCandidates jaro table query ∧ p.2.1 = e := by
  unfold search searchSorted
  rw [List.mem_map]
  constructor
  · rintro ⟨p, hp, rfl⟩
    exact ⟨p, (List.mergeSort_perm _ searchKeyLe).mem_iff.mp hp, rfl⟩
  · rintro ⟨p, hp, rfl⟩
    exact ⟨p, (List.mergeSort_perm _ searchKeyLe).mem_iff.mpr hp, rfl⟩

/-- Claim C6: a record appears in the search output iff its maximal
boosted similarity score is strictly greater than the fixed 0.75
threshold; when no score exceeds the threshold the result is the empty
sequence, not an error. -/
theorem c6_search_threshold (jaro : String → String → ℚ) (table : List Emoji)
    (query : String) :
    (∀ e : Emoji, e ∈ search jaro table query ↔
      e ∈ table ∧ emojiScoreValue jaro e query > 3 / 4) ∧
    ((∀ e ∈ table, emojiScoreValue jaro e query ≤ 3 / 4) →
      search jaro table query = []) := by
  have hiff : ∀ e : Emoji, e ∈ search jaro table query ↔
      e ∈ table ∧ emojiScoreValue jaro e query > 3 / 4 := by
    intro e
    rw [mem_search]
    constructor
    · rintro ⟨p, hp, rfl⟩
      rcases mem_searchCandidates.mp hp with ⟨hget, hgt, _⟩
      refine ⟨?_, hgt⟩
      rcases List.getElem?_eq_some_iff.mp hget with ⟨h, hx⟩
      rw [← hx]
      exact List.getElem_mem h
    · rintro ⟨hmem, hgt⟩
      rcases List.mem_iff_getElem?.mp hmem with ⟨i, hi⟩
      exact ⟨(i, e, emojiScoreValue jaro e query),
        mem_searchCandidates.mpr ⟨hi, hgt, rfl⟩, rfl⟩
  refine ⟨hiff, ?_⟩
  intro hall
  rw [List.eq_nil_iff_forall_not_mem]
  intro e he
  rcases (hiff e).mp he with ⟨hmem, hgt⟩
  exact absurd (hall e hmem) (not_le.mpr hgt)

instance : IsAntisymm (Nat × Emoji × ℚ) searchKeyLt := by
  constructor
  intro a b hab hba
  exfalso
  rcases hab with h1 | ⟨h1, h2⟩ <;> rcases hba with h3 | ⟨h3, h4⟩
  · exact lt_asymm h1 h3
  · rw [h3] at h1
    exact lt_irrefl _ h1
  · rw [h1] at h3
    exact lt_irrefl _ h3
  · omega

theorem searchSorted_pairwise_lt (jaro : String → String → ℚ)
    (table : List Emoji) (query : String) :
    (searchSorted jaro table query).Pairwise searchKeyLt := by
  have hperm : (searchSorted jaro table query).Perm
      (searchCandidates jaro table query) :=
    List.mergeSort_perm _ searchKeyLe
  have hle : (searchSorted jaro table query).Pairwise
      (fun a b => searchKeyLe a b = true) :=
    List.sorted_mergeSort searchKeyLe_trans searchKeyLe_total _
  have hne : (searchSorted jaro table query).Pairwise (fun a b => a.1 ≠ b.1) := by
    have h1 : (searchCandidates jaro table query).Pairwise
        (fun a b => a.1 ≠ b.1) :=
      (searchCandidates_pairwise_fst jaro table query).imp (fun h => Nat.ne_of_lt h)
    exact (List.Perm.pairwise_iff (fun h => h.symm) hperm).mpr h1
  refine (hle.and hne).imp ?_
  rintro a b ⟨h1, h2⟩
  simp only [searchKeyLe, Bool.or_eq_true, Bool.and_eq_true, decide_eq_true_eq] at h1
  rcases h1 with h1 | ⟨h1e, h1i⟩
  · exact Or.inl h1
  · exact Or.inr ⟨h1e, lt_of_le_of_ne h1i h2⟩

theorem searchSorted_unique (jaro : String → String → ℚ) (table : List Emoji)
    (query : String) {l2 : List (Nat × Emoji × ℚ)}
    (h : l2.Perm (searchCandidates jaro table query))
    (hs : l2.Pairwise searchKeyLt) : l2 = searchSorted jaro table query :=
  List.eq_of_perm_of_sorted
    (h.trans (List.mergeSort_perm _ searchKeyLe).symm) hs
    (searchSorted_pairwise_lt jaro table query)

/-- Claim C7: the search output is sorted strictly by descending score
with ties broken by ascending table position; it is a permutation of the
surviving candidates and it is the unique such sorted sequence, so the
output is determined by the query alone and identical across calls. -/
theorem c7_search_sorted_deterministic (jaro : String → String → ℚ)
    (table : List Emoji) (query : String) :
    (searchSorted jaro table query).Pairwise searchKeyLt ∧
    (searchSorted jaro table query).Perm (searchCandidates jaro table query) ∧
    (∀ l2, l2.Perm (searchCandidates jaro table query) →
      l2.Pairwise searchKeyLt → l2 = searchSorted jaro table query) :=
  ⟨searchSorted_pairwise_lt jaro table query,
   List.mergeSort_perm _ searchKeyLe,
   fun _ hl2 hsort => searchSorted_unique jaro table query hl2 hsort⟩

theorem foldl_max_le {α : Type} [LinearOrder α] :
    ∀ {l : List α} {init c : α}, init ≤ c → (∀ x ∈ l, x ≤ c) →
      l.foldl max init ≤ c := by
  intro l
  induction l with
  | nil => intro init c h _; exact h
  | cons a t ih =>
    intro init c h hl
    exact ih (max_le h (hl a (List.mem_cons_self _ _)))
      (fun x hx => hl x (List.mem_cons_of_mem _ hx))

theorem foldl_max_lt {α : Type} [LinearOrder α] :
    ∀ {l : List α} {init c : α}, init < c → (∀ x ∈ l, x < c) →
      l.foldl max init < c := by
  intro l
  induction l with
  | nil => intro init c h _; exact h
  | cons a t ih =>
    intro init c h hl
    exact ih (max_lt h (hl a (List.mem_cons_self _ _)))
      (fun x hx => hl x (List.mem_cons_of_mem _ hx))

theorem le_foldl_max {α : Type} [LinearOrder α] :
    ∀ {l : List α} (init : α), init ≤ l.foldl max init := by
  intro l
  induction l with
  | nil => intro init; exact le_refl _
  | cons a t ih => intro init; exact (le_max_left init a).trans (ih (max init a))

theorem mem_le_foldl_max {α : Type} [LinearOrder α] :
    ∀ {l : List α} {x : α} (init : α), x ∈ l → x ≤ l.foldl max init := by
  intro l
  induction l with
  | nil => intro x init hx; cases hx
  | cons a t ih =>
    intro x init hx
    rcases List.mem_cons.mp hx with rfl | hxt
    · exact (le_max_right init x).trans (le_foldl_max (max init x))
    · exact ih (max init a) hxt

theorem similarity_le_two (jaro : String → String → ℚ)
    (hle : ∀ s t, jaro s t ≤ 1) (thing query : String) :
    similarity jaro thing query ≤ 2 := by
  unfold similarity
  have := hle thing query
  split <;> linarith

theorem similarity_lt_two (jaro : String → String → ℚ)
    (hle : ∀ s t, jaro s t ≤ 1) (hlt : ∀ s t, s ≠ t → jaro s t < 1)
    {thing query : String} (hne : thing ≠ query) :
    similarity jaro thing query < 2 := by
  unfold similarity
  have h1 := hle thing query
  have h2 := hlt thing query hne
  split <;> linarith

theorem similarity_self (jaro : String → String → ℚ)
    (hrefl : ∀ s, jaro s s = 1) (q : String) : similarity jaro q q = 2 := by
  unfold similarity
  rw [if_pos (startsWithB_self q), hrefl]
  norm_num

/-- The query matches a record exactly: it equals the record's name or one
of its shortcode aliases. -/
abbrev isExactMatch (e : Emoji) (query : String) : Prop :=
  e.name = query ∨ query ∈ e.aliases.getD []

theorem scoreValue_of_exact (jaro : String → String → ℚ)
    (hle : ∀ s t, jaro s t ≤ 1) (hrefl : ∀ s, jaro s s = 1)
    {e : Emoji} {q : String} (hex : isExactMatch e q) :
    emojiScoreValue jaro e q = 2 := by
  unfold emojiScoreValue
  have hub : ((e.aliases.getD []).map (fun a => similarity jaro a q)).foldl max
      (similarity jaro e.name q) ≤ 2 := by
    refine foldl_max_le (similarity_le_two jaro hle _ _) ?_
    intro x hx
    rcases List.mem_map.mp hx with ⟨a, _, rfl⟩
    exact similarity_le_two jaro hle _ _
  rcases hex with hname | halias
  · refine le_antisymm hub ?_
    have h2 : similarity jaro e.name q = 2 := by
      rw [hname]
      exact similarity_self jaro hrefl q
    rw [h2] at hub ⊢
    exact le_foldl_max 2
  · refine le_antisymm hub ?_
    have hmem : similarity jaro q q ∈
        (e.aliases.getD []).map (fun a => similarity jaro a q) :=
      List.mem_map.mpr ⟨q, halias, rfl⟩
    have := mem_le_foldl_max (similarity jaro e.name q) hmem
    rw [similarity_self jaro hrefl q] at this
    exact this

theorem scoreValue_lt_two (jaro : String → String → ℚ)
    (hle : ∀ s t, jaro s t ≤ 1) (hlt : ∀ s t, s ≠ t → jaro s t < 1)
    {e : Emoji} {q : String} (hex : ¬ isExactMatch e q) :
    emojiScoreValue jaro e q < 2 := by
  unfold emojiScoreValue
  have hex2 : e.name ≠ q ∧ ∀ a ∈ e.aliases.getD [], a ≠ q := by
    constructor
    · intro h
      exact hex (Or.inl h)
    · intro a ha h
      exact hex (Or.inr (h ▸ ha))
  refine foldl_max_lt (similarity_lt_two jaro hle hlt hex2.1) ?_
  intro x hx
  rcases List.mem_map.mp hx with ⟨a, ha, rfl⟩
  exact similarity_lt_two jaro hle hlt (hex2.2 a ha)

/-- Claim C8: a record whose name or some alias equals the query exactly
is ranked strictly before every surviving record with no exact match
(given the Jaro metric's range properties: values in `[…,1]`, 1 exactly on
equal strings). -/
theorem c8_exact_match_first (jaro : String → String → ℚ) (table : List Emoji)
    (query : String)
    (hle : ∀ s t, jaro s t ≤ 1) (hrefl : ∀ s, jaro s s = 1)
    (hlt : ∀ s t, s ≠ t → jaro s t < 1)
    (a b : Nat × Emoji × ℚ) (ia ib : Nat)
    (ha : (searchSorted jaro table query)[ia]? = some a)
    (hb : (searchSorted jaro table query)[ib]? = some b)
    (hae : isExactMatch a.2.1 query) (hbe : ¬ isExactMatch b.2.1 query) :
    ia < ib := by
  obtain ⟨hiaLen, haeq⟩ := List.getElem?_eq_some_iff.mp ha
  obtain ⟨hibLen, hbeq⟩ := List.getElem?_eq_some_iff.mp hb
  have hamem : a ∈ searchCandidates jaro table query := by
    refine (List.mergeSort_perm _ searchKeyLe).mem_iff.mp ?_
    rw [← haeq]
    exact List.getElem_mem hiaLen
  have hbmem : b ∈ searchCandidates jaro table query := by
    refine (List.mergeSort_perm _ searchKeyLe).mem_iff.mp ?_
    rw [← hbeq]
    exact List.getElem_mem hibLen
  obtain ⟨_, _, hascore⟩ := mem_searchCandidates.mp hamem
  obtain ⟨_, _, hbscore⟩ := mem_searchCandidates.mp hbmem
  have ha2 : a.2.2 = 2 := by
    rw [hascore]
    exact scoreValue_of_exact jaro hle hrefl hae
  have hb2 : b.2.2 < 2 := by
    rw [hbscore]
    exact scoreValue_lt_two jaro hle hlt hbe
  rcases Nat.lt_trichotomy ia ib with h | h | h
  · exact h
  · exfalso
    rw [h] at ha
    rw [ha] at hb
    have hab : a = b := Option.some_inj.mp hb
    rw [hab] at ha2
    rw [ha2] at hb2
    exact lt_irrefl _ hb2
  · exfalso
    have hpair : (searchSorted jaro table query).Pairwise
        (fun x y => searchKeyLe x y = true) :=
      List.sorted_mergeSort searchKeyLe_trans searchKeyLe_total _
    rw [List.pairwise_iff_getElem] at hpair
    have hba := hpair ib ia hibLen hiaLen h
    rw [hbeq, haeq] at hba
    simp only [searchKeyLe, Bool.or_eq_true, Bool.and_eq_true,
      decide_eq_true_eq] at hba
    rcases hba with hba | ⟨hba, _⟩
    · rw [ha2] at hba
      linarith
    · rw [ha2] at hba
      linarith

/-- Modelled from the spec: a stand-in for the external Jaro metric used
only to exercise C8 at a concrete input — normalized, 1 exactly on equal
strings, strictly below 1 otherwise. -/
def jaroToy (s t : String) : ℚ :=
  if s = t then 1 else 4 / 5

/-- A sample record whose name shares no prefix with "rocket". -/
def starshipE : Emoji :=
  { emoji := "🛸", name := "starship", unicode_version := (0, 7),
    group := Group.TravelAndPlaces, skin_tone := none, aliases := none }

/-- Witness for C8: on the table `[starship, rocket]` with query
"rocket", the exact match is ranked first. -/
theorem c8_exact_match_first_witness :
    (∀ s t, jaroToy s t ≤ 1) ∧ (∀ s, jaroToy s s = 1) ∧
    (∀ s t, s ≠ t → jaroToy s t < 1) ∧
    (searchSorted jaroToy [starshipE, rocketE] "rocket")[0]? =
      some (1, rocketE, 2) ∧
    (searchSorted jaroToy [starshipE, rocketE] "rocket")[1]? =
      some (0, starshipE, 4 / 5) ∧
    isExactMatch ((1, rocketE, (2 : ℚ))).2.1 "rocket" ∧
    ¬ isExactMatch ((0, starshipE, (4 / 5 : ℚ))).2.1 "rocket" ∧
    (0 : Nat) < 1 := by
  have h1 : ∀ s t, jaroToy s t ≤ 1 := by
    intro s t
    unfold jaroToy
    split <;> norm_num
  have h2 : ∀ s, jaroToy s s = 1 := by
    intro s
    simp [jaroToy]
  have h3 : ∀ s t, s ≠ t → jaroToy s t < 1 := by
    intro s t h
    unfold jaroToy
    rw [if_neg h]
    norm_num
  have hv1 : emojiScoreValue jaroToy starshipE "rocket" = 4 / 5 := by
    have hsw : startsWithB "starship" "rocket" = false := by decide
    simp [emojiScoreValue, starshipE, similarity, jaroToy, hsw]
  have hv2 : emojiScoreValue jaroToy rocketE "rocket" = 2 := by
    have hsw : startsWithB "rocket" "rocket" = true := startsWithB_self _
    simp [emojiScoreValue, rocketE, similarity, jaroToy, hsw]
  have hes1 : emoji_score jaroToy starshipE "rocket" = some (4 / 5) := by
    unfold emoji_score
    rw [hv1]
    norm_num
  have hes2 : emoji_score jaroToy rocketE "rocket" = some 2 := by
    unfold emoji_score
    rw [hv2]
    norm_num
  have hcand : searchCandidates jaroToy [starshipE, rocketE] "rocket" =
      [(0, starshipE, 4 / 5), (1, rocketE, 2)] := by
    unfold searchCandidates
    simp [List.enum, List.enumFrom, List.filterMap_cons, hes1, hes2]
  have hpw : List.Pairwise searchKeyLt
      [(1, rocketE, (2 : ℚ)), (0, starshipE, (4 / 5 : ℚ))] := by
    refine List.pairwise_cons.mpr ⟨?_, List.pairwise_singleton _ _⟩
    intro x hx
    rw [List.mem_singleton.mp hx]
    left
    norm_num
  have hperm2 : List.Perm [(1, rocketE, (2 : ℚ)), (0, starshipE, (4 / 5 : ℚ))]
      (searchCandidates jaroToy [starshipE, rocketE] "rocket") := by
    rw [hcand]
    exact List.Perm.swap _ _ _
  have hsorted : [(1, rocketE, (2 : ℚ)), (0, starshipE, (4 / 5 : ℚ))] =
      searchSorted jaroToy [starshipE, rocketE] "rocket" :=
    searchSorted_unique jaroToy [starshipE, rocketE] "rocket" hperm2 hpw
  have hs0 : (searchSorted jaroToy [starshipE, rocketE] "rocket")[0]? =
      some (1, rocketE, 2) := by
    rw [← hsorted]
    rfl
  have hs1 : (searchSorted jaroToy [starshipE, rocketE] "rocket")[1]? =
      some (0, starshipE, 4 / 5) := by
    rw [← hsorted]
    rfl
  have hex : isExactMatch ((1, rocketE, (2 : ℚ))).2.1 "rocket" := Or.inl rfl
  have hnex : ¬ isExactMatch ((0, starshipE, (4 / 5 : ℚ))).2.1 "rocket" := by
    decide
  exact ⟨h1, h2, h3, hs0, hs1, hex, hnex,
    c8_exact_match_first jaroToy [starshipE, rocketE] "rocket" h1 h2 h3
      (1, rocketE, 2) (0, starshipE, 4 / 5) 0 1 hs0 hs1 hex hnex⟩

/-! ## The generator's family construction (generate/src/unicode.rs, C5)

`parse_emoji_data` builds each subgroup's record vector line by line:
component lines are skipped, minimally/unqualified lines attach their
sequence to the last record's variations, a fully-qualified default-tone
(or toneless) record is appended, and a fully-qualified toned record
back-fills the default member of its family and is inserted into the
family run at its tone-order position via `partition_point`. -/

/-- `Status` from `generate/src/unicode.rs`. -/
inductive Status where
  | FullyQualified
  | MinimallyQualified
  | Unqualified
  | Component
deriving DecidableEq, Repr

/-- The generator's `Emoji` record (`generate/src/unicode.rs`).
`skin_tones` is the family-size counter back-filled on default members;
`skin_tone` is `None` for toneless records and never `Some(Default)` when
parsed from a line (`Default` is only assigned by back-filling). -/
structure GenEmoji where
  emoji : String
  name : String
  unicode_version : Nat × Nat
  status : Status
  skin_tones : Nat
  skin_tone : Option SkinTone
  variations : List String
deriving DecidableEq, Repr

/-- Rust `str::contains` at the character level: some suffix of the
haystack starts with the pattern (the generator only ever calls it as
`emoji.name.contains(&emoji.name)`, a self-containment test). -/
def strContains (hay pat : List Char) : Bool :=
  hay.tails.any (fun t => pat.isPrefixOf t)

theorem strContains_self (s : List Char) : strContains s s = true := by
  unfold strContains
  rw [List.any_eq_true]
  exact ⟨s, (List.mem_tails s s).mpr (List.suffix_refl s),
    List.isPrefixOf_iff_prefix.mpr (List.prefix_refl s)⟩

/-- The `matches!(e.skin_tone, None | Some(SkinTone::Default))` test of
the generator's find predicate. -/
def isDefaultOrNone (o : Option SkinTone) : Bool :=
  o == none || o == some SkinTone.Default

/-- A record carrying a real (non-default) skin tone. -/
def isTonedO (o : Option SkinTone) : Bool :=
  match o with
  | some t => !(t == SkinTone.Default)
  | none => false

theorem isTonedO_eq_not (o : Option SkinTone) :
    isTonedO o = !(isDefaultOrNone o) := by
  cases o with
  | none => rfl
  | some t => simp [isTonedO, isDefaultOrNone]

/-- The derived `Ord` of the Rust `SkinTone` enum (declaration order)
lifted to `Option` by the Rust `Option` ordering (`None < Some _`), as a
strict comparison. -/
def toneLtB : Option SkinTone → Option SkinTone → Bool
  | none, none => false
  | none, some _ => true
  | some _, none => false
  | some x, some y => decide (toneIdx x < toneIdx y)

/-- `iter_mut().enumerate().rev().find(...)` of the generator: the last
index whose record has a default-or-missing skin tone.  The source's
second conjunct `emoji.name.contains(&emoji.name)` compares the new
record's name with itself and always holds. -/
def findDefaultIdx (v : List GenEmoji) (newE : GenEmoji) : Option Nat :=
  ((v.enum.reverse).find? (fun p =>
    isDefaultOrNone p.2.skin_tone &&
      strContains newE.name.data newE.name.data)).map (fun p => p.1)

/-- Rust `slice::partition_point` on a partitioned slice: the number of
leading elements satisfying the predicate (the source's binary search
coincides with this on partitioned input, the only case its result is
specified for). -/
def partition_point (p : GenEmoji → Bool) (l : List GenEmoji) : Nat :=
  (l.takeWhile p).length

/-- The back-fill applied to a family's default member when a toned
member is found (`def.skin_tone = Some(SkinTone::Default);
def.skin_tones += 1;`). -/
def backfillDefault (d : GenEmoji) : GenEmoji :=
  { d with skin_tone := some SkinTone.Default, skin_tones := d.skin_tones + 1 }

/-- Attaching a minimally/unqualified sequence to a record's variations
(`…variations.push(emoji.emoji)`). -/
def pushVariation (s : String) (d : GenEmoji) : GenEmoji :=
  { d with variations := d.variations ++ [s] }

/-- One line-step of `parse_emoji_data` within a subgroup
(`generate/src/unicode.rs` lines 281-335): components are skipped;
minimally/unqualified records push their sequence onto the last record's
variations; a fully-qualified default/toneless record is appended; a
fully-qualified toned record back-fills the last default member (tone set
to `Default`, count bumped) and is inserted at its tone-order position in
the family run.  `none` models the generator's fatal
`failed to find fully qualified variation` error. -/
def parseStep (v : List GenEmoji) (e : GenEmoji) : Option (List GenEmoji) :=
  match e.status with
  | Status.Component => some v
  | Status.MinimallyQualified | Status.Unqualified =>
    match v.getLast? with
    | none => none
    | some _ =>
      some (v.modify (pushVariation e.emoji) (v.length - 1))
  | Status.FullyQualified =>
    match e.skin_tone with
    | none => some (v ++ [e])
    | some t =>
      if t = SkinTone.Default then some (v ++ [e])
      else
        match findDefaultIdx v e with
        | none => none
        | some i =>
          let v2 := v.modify backfillDefault i
          let j := partition_point (fun x => toneLtB x.skin_tone (some t)) (v2.drop i)
          some (v2.insertIdx (i + j) e)

/-- The subgroup's vector after processing its lines in order. -/
def buildSubgroup (es : List GenEmoji) : Option (List GenEmoji) :=
  es.foldlM parseStep []

/-- One adjacent-pair constraint of the family layout: a record either
opens a new family (default-or-missing tone) or continues the toned run
of its family, following either the Default-toned base or a
smaller-or-equal non-default tone. -/
def AdjOk (a b : GenEmoji) : Prop :=
  isDefaultOrNone b.skin_tone = true ∨
    (isTonedO b.skin_tone = true ∧
      (a.skin_tone = some SkinTone.Default ∨
        (isTonedO a.skin_tone = true ∧
          toneLtB b.skin_tone a.skin_tone = false)))

instance (a b : GenEmoji) : Decidable (AdjOk a b) := by
  unfold AdjOk
  infer_instance

/-- The family-layout invariant maintained by the subgroup construction:
the vector opens with a family base, and every adjacent pair satisfies
`AdjOk` — equivalently, the vector is a concatenation of families, each a
default-or-toneless base followed by a nondecreasing run of non-default
tones whose base carries tone `Default`. -/
def FamilyLayout (v : List GenEmoji) : Prop :=
  v.head?.all (fun h => isDefaultOrNone h.skin_tone) = true ∧ v.Chain' AdjOk

instance (v : List GenEmoji) : Decidable (FamilyLayout v) := by
  unfold FamilyLayout
  infer_instance

/-- Modelled from the spec (§4.3 step 3: `base_index` is back-filled once
the Default member's position is known; the code emitting the generated
triples is not among the sources): the base index of the record at
position `p` is the position of the nearest preceding record that opens a
family. -/
def baseIndexOf (v : List GenEmoji) (p : Nat) : Option Nat :=
  (((v.take (p + 1)).enum.reverse).find?
    (fun q => isDefaultOrNone q.2.skin_tone)).map (fun q => q.1)

theorem findLast_some {α : Type} {p : α → Bool} :
    ∀ {l : List α} {pr : Nat × α},
      (l.enum.reverse.find? (fun z => p z.2)) = some pr →
      l[pr.1]? = some pr.2 ∧ p pr.2 = true ∧
        ∀ r y, pr.1 < r → l[r]? = some y → p y = false := by
  intro l
  induction l using List.reverseRecOn with
  | nil => intro pr h; simp [List.find?] at h
  | append_singleton l a ih =>
    intro pr h
    rw [List.enum_append, List.enumFrom_singleton, List.reverse_append,
      List.reverse_singleton, List.singleton_append] at h
    by_cases hpa : p a = true
    · rw [List.find?_cons_of_pos _ (by simpa using hpa)] at h
      rcases Option.some_inj.mp h with rfl
      refine ⟨List.getElem?_concat_length l a, hpa, ?_⟩
      intro r y hr hy
      have : r < l.length + 1 := by
        have := (List.getElem?_eq_some_iff.mp hy).1
        simpa using this
      omega
    · rw [List.find?_cons_of_neg _ (by simpa using hpa)] at h
      obtain ⟨h1, h2, h3⟩ := ih h
      have hlt : pr.1 < l.length := (List.getElem?_eq_some_iff.mp h1).1
      refine ⟨by rw [List.getElem?_append_left hlt]; exact h1, h2, ?_⟩
      intro r y hr hy
      rcases Nat.lt_trichotomy r l.length with hrl | hrl | hrl
      · rw [List.getElem?_append_left hrl] at hy
        exact h3 r y hr hy
      · rw [hrl] at hy
        rw [List.getElem?_concat_length] at hy
        rcases Option.some_inj.mp hy with rfl
        simpa using hpa
      · exfalso
        have := (List.getElem?_eq_some_iff.mp hy).1
        simp at this
        omega

theorem findLast_none {α : Type} {p : α → Bool} :
    ∀ {l : List α},
      (l.enum.reverse.find? (fun z => p z.2)) = none →
      ∀ x ∈ l, p x = false := by
  intro l
  induction l using List.reverseRecOn with
  | nil => intro _ x hx; cases hx
  | append_singleton l a ih =>
    intro h x hx
    rw [List.enum_append, List.enumFrom_singleton, List.reverse_append,
      List.reverse_singleton, List.singleton_append] at h
    by_cases hpa : p a = true
    · rw [List.find?_cons_of_pos _ (by simpa using hpa)] at h
      cases h
    · rw [List.find?_cons_of_neg _ (by simpa using hpa)] at h
      rcases List.mem_append.mp hx with hxl | hxa
      · exact ih h x hxl
      · rcases List.mem_singleton.mp hxa with rfl
        simpa using hpa

theorem findDefaultIdx_spec {v : List GenEmoji} {e : GenEmoji} {i : Nat}
    (h : findDefaultIdx v e = some i) :
    ∃ d, v[i]? = some d ∧ isDefaultOrNone d.skin_tone = true ∧
      ∀ r y, i < r → v[r]? = some y → isDefaultOrNone y.skin_tone = false := by
  unfold findDefaultIdx at h
  rw [show (fun p : Nat × GenEmoji =>
        isDefaultOrNone p.2.skin_tone &&
          strContains e.name.data e.name.data) =
      (fun p : Nat × GenEmoji => isDefaultOrNone p.2.skin_tone) from
    funext fun p => by rw [strContains_self, Bool.and_true]] at h
  rcases Option.map_eq_some'.mp h with ⟨pr, hpr, hi⟩
  obtain ⟨h1, h2, h3⟩ :=
    findLast_some (p := fun d : GenEmoji => isDefaultOrNone d.skin_tone) hpr
  subst hi
  exact ⟨pr.2, h1, h2, h3⟩

theorem chain'_iff_getElemOpt {α : Type} {R : α → α → Prop} {l : List α} :
    l.Chain' R ↔
      ∀ (i : Nat) (x y : α), l[i]? = some x → l[i + 1]? = some y → R x y := by
  rw [List.chain'_iff_get]
  constructor
  · intro h i x y hx hy
    obtain ⟨hix, hgx⟩ := List.getElem?_eq_some_iff.mp hx
    obtain ⟨hiy, hgy⟩ := List.getElem?_eq_some_iff.mp hy
    have hi : i < l.length - 1 := by omega
    have h2 := h i hi
    rw [List.get_eq_getElem, List.get_eq_getElem] at h2
    rw [← hgx, ← hgy]
    exact h2
  · intro h i hi
    rw [List.get_eq_getElem, List.get_eq_getElem]
    exact h i _ _ (List.getElem?_eq_some_iff.mpr ⟨by omega, rfl⟩)
      (List.getElem?_eq_some_iff.mpr ⟨by omega, rfl⟩)

theorem insertIdx_eq_take_drop {α : Type} (x : α) :
    ∀ (n : Nat) (l : List α), n ≤ l.length →
      l.insertIdx n x = l.take n ++ x :: l.drop n := by
  intro n
  induction n with
  | zero =>
    intro l _
    simp [List.insertIdx_zero]
  | succ n ih =>
    intro l hl
    cases l with
    | nil => simp at hl
    | cons a t =>
      rw [List.insertIdx_succ_cons, ih t (by simpa using hl)]
      simp

theorem takeWhile_getElem?_true {α : Type} {p : α → Bool} :
    ∀ {l : List α} {k : Nat} {y : α},
      k < (l.takeWhile p).length → l[k]? = some y → p y = true := by
  intro l
  induction l with
  | nil =>
    intro k y hk _
    simp at hk
  | cons a t ih =>
    intro k y hk hy
    rw [List.takeWhile_cons] at hk
    by_cases hpa : p a = true
    · rw [if_pos hpa] at hk
      match k with
      | 0 =>
        simp only [List.getElem?_cons_zero, Option.some_inj] at hy
        rw [← hy]
        exact hpa
      | k + 1 =>
        simp only [List.length_cons] at hk
        exact ih (k := k) (y := y) (by omega) (by simpa using hy)
    · rw [if_neg hpa] at hk
      simp at hk

theorem takeWhile_len_getElem?_false {α : Type} {p : α → Bool} :
    ∀ {l : List α} {y : α},
      l[(l.takeWhile p).length]? = some y → p y = false := by
  intro l
  induction l with
  | nil =>
    intro y h
    simp at h
  | cons a t ih =>
    intro y h
    rw [List.takeWhile_cons] at h
    by_cases hpa : p a = true
    · rw [if_pos hpa] at h
      simp only [List.length_cons] at h
      exact ih (by simpa using h)
    · rw [if_neg hpa] at h
      simp only [List.length_nil, List.getElem?_cons_zero, Option.some_inj] at h
      rw [← h]
      simpa using hpa

theorem toneIdx_eq_zero_iff : ∀ t : SkinTone, toneIdx t = 0 ↔ t = SkinTone.Default := by
  intro t
  cases t <;> decide

theorem toneLtB_asymm :
    ∀ {o1 o2 : Option SkinTone}, toneLtB o1 o2 = true → toneLtB o2 o1 = false := by
  intro o1 o2 h
  cases o1 <;> cases o2 <;> simp_all [toneLtB]
  omega

theorem adjOk_congr {a a2 b b2 : GenEmoji} (ha : a.skin_tone = a2.skin_tone)
    (hb : b.skin_tone = b2.skin_tone) (h : AdjOk a b) : AdjOk a2 b2 := by
  unfold AdjOk at h ⊢
  rw [← ha, ← hb]
  exact h

theorem layout_modify_tone_preserving {f : GenEmoji → GenEmoji}
    (hf : ∀ d, (f d).skin_tone = d.skin_tone) (n : Nat) {v : List GenEmoji}
    (hv : FamilyLayout v) : FamilyLayout (v.modify f n) := by
  obtain ⟨hhead, hchain⟩ := hv
  constructor
  · rw [List.head?_eq_getElem?, List.getElem?_modify]
    rw [List.head?_eq_getElem?] at hhead
    cases h0 : v[0]? with
    | none => rfl
    | some a =>
      rw [h0] at hhead
      simp only [Option.map_some, Option.all_some]
      split
      · rw [hf a]
        simpa using hhead
      · simpa using hhead
  · rw [chain'_iff_getElemOpt] at hchain ⊢
    intro i x y hx hy
    rw [List.getElem?_modify] at hx hy
    cases hvi : v[i]? with
    | none => rw [hvi] at hx; cases hx
    | some x0 =>
      cases hvj : v[i + 1]? with
      | none => rw [hvj] at hy; cases hy
      | some y0 =>
        rw [hvi] at hx
        rw [hvj] at hy
        simp only [Option.map_some, Option.some_inj] at hx hy
        have hxs : x.skin_tone = x0.skin_tone := by
          rw [← hx]
          split <;> simp [hf]
        have hys : y.skin_tone = y0.skin_tone := by
          rw [← hy]
          split <;> simp [hf]
        exact adjOk_congr hxs.symm hys.symm (hchain i x0 y0 hvi hvj)

theorem layout_append_base {v : List GenEmoji} {e : GenEmoji}
    (hv : FamilyLayout v) (he : isDefaultOrNone e.skin_tone = true) :
    FamilyLayout (v ++ [e]) := by
  obtain ⟨hhead, hchain⟩ := hv
  constructor
  · cases v with
    | nil => simpa using he
    | cons a t => simpa using hhead
  · rw [List.chain'_append]
    refine ⟨hchain, List.chain'_singleton e, ?_⟩
    intro x _ y hy
    rcases Option.mem_def.mp hy with hy2
    simp only [List.head?_cons, Option.some_inj] at hy2
    rw [← hy2]
    exact Or.inl he

theorem layout_insert_toned {v : List GenEmoji} {e : GenEmoji} {t : SkinTone}
    {i : Nat} (hv : FamilyLayout v) (ht : e.skin_tone = some t)
    (htd : ¬ t = SkinTone.Default) (hfd : findDefaultIdx v e = some i) :
    FamilyLayout
      ((v.modify backfillDefault i).insertIdx
        (i + partition_point (fun x => toneLtB x.skin_tone (some t))
          ((v.modify backfillDefault i).drop i)) e) := by
  obtain ⟨d0, hd0, hd0base, hafter⟩ := findDefaultIdx_spec hfd
  obtain ⟨hhead, hchain⟩ := hv
  have hilen : i < v.length := (List.getElem?_eq_some_iff.mp hd0).1
  set f : GenEmoji → GenEmoji := backfillDefault with hfdef
  set pt : GenEmoji → Bool := fun x => toneLtB x.skin_tone (some t) with hpt
  have hlen2 : (v.modify f i).length = v.length := List.length_modify f i v
  have hv2i : (v.modify f i)[i]? = some (f d0) := by
    rw [List.getElem?_modify, hd0]
    simp
  have hv2r : ∀ r, r ≠ i → (v.modify f i)[r]? = v[r]? := by
    intro r hr
    rw [List.getElem?_modify]
    rcases v[r]? with _ | a
    · rfl
    · simp only [Option.map_some]
      rw [if_neg (fun hEq => hr hEq.symm)]
  have hbase2 : ∀ r y, i < r → (v.modify f i)[r]? = some y →
      isDefaultOrNone y.skin_tone = false := by
    intro r y hr hy
    rw [hv2r r (by omega)] at hy
    exact hafter r y hr hy
  have hetone : isTonedO e.skin_tone = true := by
    rw [ht]
    simpa [isTonedO] using htd
  have hL2 : FamilyLayout (v.modify f i) := by
    constructor
    · rw [List.head?_eq_getElem?]
      by_cases h0 : i = 0
      · subst h0
        rw [hv2i]
        rfl
      · rw [hv2r 0 (fun hEq => h0 hEq.symm)]
        rw [List.head?_eq_getElem?] at hhead
        exact hhead
    · rw [chain'_iff_getElemOpt]
      intro r x y hx hy
      by_cases hyi : r + 1 = i
      · rw [hyi, hv2i] at hy
        obtain rfl := Option.some_inj.mp hy
        exact Or.inl rfl
      · by_cases hxi : r = i
        · rw [hxi, hv2i] at hx
          obtain rfl := Option.some_inj.mp hx
          have hytone := hbase2 (r + 1) y (by omega) hy
          refine Or.inr ⟨?_, Or.inl rfl⟩
          rw [isTonedO_eq_not, hytone]
          rfl
        · rw [hv2r r hxi] at hx
          rw [hv2r (r + 1) hyi] at hy
          exact (chain'_iff_getElemOpt.mp hchain) r x y hx hy
  have hdropi : (v.modify f i).drop i = f d0 :: (v.modify f i).drop (i + 1) := by
    have hi2 : i < (v.modify f i).length := by omega
    rw [List.drop_eq_getElem_cons hi2]
    congr 1
    have h2 := hv2i
    rw [List.getElem?_eq_some_iff] at h2
    exact h2.2
  have hptd0 : pt (f d0) = true := by
    show toneLtB (some SkinTone.Default) (some t) = true
    simp only [toneLtB]
    rw [decide_eq_true_iff]
    have hne : toneIdx t ≠ 0 := fun h => htd ((toneIdx_eq_zero_iff t).mp h)
    have h0 : toneIdx SkinTone.Default = 0 := rfl
    omega
  have hj : partition_point pt ((v.modify f i).drop i) =
      partition_point pt ((v.modify f i).drop (i + 1)) + 1 := by
    unfold partition_point
    rw [hdropi, List.takeWhile_cons, if_pos hptd0]
    simp
  rw [hj]
  set j2 := partition_point pt ((v.modify f i).drop (i + 1)) with hj2
  have hj2le : j2 ≤ v.length - (i + 1) := by
    have h1 : j2 ≤ ((v.modify f i).drop (i + 1)).length :=
      (List.takeWhile_prefix pt).length_le
    rw [List.length_drop, hlen2] at h1
    exact h1
  have hmlen : i + 1 + j2 ≤ (v.modify f i).length := by
    rw [hlen2]
    omega
  have hidx : i + (j2 + 1) = i + 1 + j2 := by omega
  rw [hidx, insertIdx_eq_take_drop e (i + 1 + j2) (v.modify f i) hmlen]
  have hBhead : ∀ y, ((v.modify f i).drop (i + 1 + j2)).head? = some y →
      isTonedO y.skin_tone = true ∧ pt y = false := by
    intro y hy
    rw [List.head?_drop] at hy
    constructor
    · rw [isTonedO_eq_not, hbase2 (i + 1 + j2) y (by omega) hy]
      rfl
    · refine takeWhile_len_getElem?_false (l := (v.modify f i).drop (i + 1)) ?_
      rw [List.getElem?_drop]
      show (v.modify f i)[i + 1 + j2]? = some y
      exact hy
  have hAlast : ∀ x, ((v.modify f i).take (i + 1 + j2)).getLast? = some x →
      AdjOk x e := by
    intro x hx
    rw [List.getLast?_eq_getElem?, List.length_take] at hx
    have hmin : min (i + 1 + j2) (v.modify f i).length = i + 1 + j2 := by omega
    rw [hmin] at hx
    have hx2 : (v.modify f i)[i + 1 + j2 - 1]? = some x := by
      rw [List.getElem?_take] at hx
      · rw [if_pos (by omega)] at hx
        exact hx
    match hj0 : j2 with
    | 0 =>
      have : i + 1 + 0 - 1 = i := by omega
      rw [this, hv2i] at hx2
      obtain rfl := Option.some_inj.mp hx2
      exact Or.inr ⟨hetone, Or.inl rfl⟩
    | j3 + 1 =>
      have hidx2 : i + 1 + (j3 + 1) - 1 = i + 1 + j3 := by omega
      rw [hidx2] at hx2
      have hxtone : isTonedO x.skin_tone = true := by
        rw [isTonedO_eq_not, hbase2 (i + 1 + j3) x (by omega) hx2]
        rfl
      have hptx : pt x = true := by
        refine takeWhile_getElem?_true (l := (v.modify f i).drop (i + 1))
          (k := j3) ?_ ?_
        · have hlen3 : (List.takeWhile pt ((v.modify f i).drop (i + 1))).length =
              j3 + 1 := hj2.symm
          omega
        · rw [List.getElem?_drop]
          exact hx2
      refine Or.inr ⟨hetone, Or.inr ⟨hxtone, ?_⟩⟩
      rw [ht]
      exact toneLtB_asymm hptx
  constructor
  · have hA0 : ((v.modify f i).take (i + 1 + j2)).head? = (v.modify f i).head? := by
      rw [List.head?_take, if_neg (by omega)]
    cases hA : (v.modify f i).take (i + 1 + j2) with
    | nil =>
      exfalso
      have h9 := congrArg List.length hA
      rw [List.length_take, hlen2] at h9
      simp only [List.length_nil] at h9
      rcases Nat.min_eq_zero_iff.mp h9 with h9 | h9 <;> omega
    | cons a A2 =>
      rw [hA] at hA0
      simp only [List.cons_append, List.head?_cons]
      rw [List.head?_cons] at hA0
      have := hL2.1
      rw [← hA0] at this
      exact this
  · rw [List.chain'_append]
    have hsplitChain : ((v.modify f i).take (i + 1 + j2) ++
        (v.modify f i).drop (i + 1 + j2)).Chain' AdjOk := by
      rw [List.take_append_drop]
      exact hL2.2
    obtain ⟨hcA, hcB, _⟩ := List.chain'_append.mp hsplitChain
    refine ⟨hcA, ?_, ?_⟩
    · rw [List.chain'_cons']
      refine ⟨?_, hcB⟩
      intro y hy
      obtain ⟨hytone, hpty⟩ := hBhead y (Option.mem_def.mp hy)
      refine Or.inr ⟨hytone, Or.inr ⟨hetone, ?_⟩⟩
      rw [ht]
      exact hpty
    · intro x hx y hy
      rw [List.head?_cons] at hy
      obtain rfl := Option.some_inj.mp (Option.mem_def.mp hy)
      exact hAlast x (Option.mem_def.mp hx)

theorem parseStep_layout {v : List GenEmoji} {e : GenEmoji} {w : List GenEmoji}
    (hv : FamilyLayout v) (hw : parseStep v e = some w) : FamilyLayout w := by
  unfold parseStep at hw
  split at hw
  · obtain rfl := Option.some_inj.mp hw
    exact hv
  · split at hw
    · cases hw
    · obtain rfl := Option.some_inj.mp hw
      exact layout_modify_tone_preserving (f := pushVariation e.emoji)
        (fun d => rfl) _ hv
  · split at hw
    · cases hw
    · obtain rfl := Option.some_inj.mp hw
      exact layout_modify_tone_preserving (f := pushVariation e.emoji)
        (fun d => rfl) _ hv
  · split at hw
    · obtain rfl := Option.some_inj.mp hw
      refine layout_append_base hv ?_
      rename_i heq
      rw [heq]
      rfl
    · rename_i t heq
      split at hw
      · obtain rfl := Option.some_inj.mp hw
        refine layout_append_base hv ?_
        rename_i htEq
        rw [heq, htEq]
        rfl
      · rename_i htd
        split at hw
        · cases hw
        · rename_i i hfd
          obtain rfl := Option.some_inj.mp hw
          exact layout_insert_toned hv heq htd hfd

theorem buildSubgroup_aux :
    ∀ {es : List GenEmoji} (v0 : List GenEmoji) {v : List GenEmoji},
      FamilyLayout v0 →
      List.foldlM parseStep v0 es = some v → FamilyLayout v := by
  intro es
  induction es with
  | nil =>
    intro v0 v h0 h
    obtain rfl := Option.some_inj.mp h
    exact h0
  | cons e es ih =>
    intro v0 v h0 h
    rw [List.foldlM_cons] at h
    cases hstep : parseStep v0 e with
    | none =>
      rw [hstep] at h
      cases h
    | some v1 =>
      rw [hstep] at h
      exact ih v1 (parseStep_layout h0 hstep) h

theorem buildSubgroup_layout {es : List GenEmoji} {v : List GenEmoji}
    (h : buildSubgroup es = some v) : FamilyLayout v :=
  buildSubgroup_aux [] ⟨rfl, List.chain'_nil⟩ h

/-- Claim C5: in a subgroup vector built by the generator, every record's
back-filled base index exists at or before it, names the family-opening
record — which carries tone `Default` whenever the record is not itself
the base (self-reference for the Default member) — and everything strictly
between the base and the record is a non-default-toned family member, so
the Default member is the first record of the family's contiguous run. -/
theorem c5_base_index (es : List GenEmoji) (v : List GenEmoji)
    (hb : buildSubgroup es = some v) (p : Nat) (e : GenEmoji)
    (hp : v[p]? = some e) :
    ∃ q, baseIndexOf v p = some q ∧ q ≤ p ∧
      (∃ d, v[q]? = some d ∧ isDefaultOrNone d.skin_tone = true ∧
        (q = p ∨ d.skin_tone = some SkinTone.Default)) ∧
      (∀ r, q < r → r ≤ p → ∃ e2, v[r]? = some e2 ∧ isTonedO e2.skin_tone = true) := by
  obtain ⟨hhead, hchain⟩ := buildSubgroup_layout hb
  have hplen : p < v.length := (List.getElem?_eq_some_iff.mp hp).1
  have htlen : (v.take (p + 1)).length = p + 1 := by
    rw [List.length_take]
    omega
  have htake : ∀ r, r ≤ p → (v.take (p + 1))[r]? = v[r]? := by
    intro r hr
    rw [List.getElem?_take, if_pos (by omega)]
  unfold baseIndexOf
  cases hfind : ((v.take (p + 1)).enum.reverse).find?
      (fun q => isDefaultOrNone q.2.skin_tone) with
  | none =>
    exfalso
    have hall := findLast_none (p := fun d : GenEmoji => isDefaultOrNone d.skin_tone) hfind
    have h0 : (v.take (p + 1))[0]? = v[0]? := htake 0 (by omega)
    rw [List.head?_eq_getElem?] at hhead
    cases hv0 : v[0]? with
    | none =>
      rw [List.getElem?_eq_none_iff] at hv0
      omega
    | some a =>
      have ha : a ∈ v.take (p + 1) := by
        have := h0.trans hv0
        rcases List.getElem?_eq_some_iff.mp this with ⟨hlt, hEq⟩
        rw [← hEq]
        exact List.getElem_mem hlt
      have hfalse : isDefaultOrNone a.skin_tone = false := by simpa using hall a ha
      rw [hv0] at hhead
      simp only [Option.all_some] at hhead
      rw [hfalse] at hhead
      cases hhead
  | some pr =>
    obtain ⟨h1, h2, h3⟩ :=
      findLast_some (p := fun d : GenEmoji => isDefaultOrNone d.skin_tone) hfind
    have hq : pr.1 < p + 1 := by
      have := (List.getElem?_eq_some_iff.mp h1).1
      omega
    have hq1 : v[pr.1]? = some pr.2 := by
      rw [← htake pr.1 (by omega)]
      exact h1
    have hmid : ∀ r, pr.1 < r → r ≤ p → ∃ e2, v[r]? = some e2 ∧
        isTonedO e2.skin_tone = true := by
      intro r hr1 hr2
      cases hvr : v[r]? with
      | none =>
        rw [List.getElem?_eq_none_iff] at hvr
        omega
      | some e2 =>
        refine ⟨e2, rfl, ?_⟩
        have := h3 r e2 hr1 (by rw [htake r hr2]; exact hvr)
        rw [isTonedO_eq_not, this]
        rfl
    refine ⟨pr.1, by rfl, by omega, ⟨pr.2, hq1, h2, ?_⟩, hmid⟩
    by_cases hqp : pr.1 = p
    · exact Or.inl hqp
    · right
      obtain ⟨e2, he2, he2t⟩ := hmid (pr.1 + 1) (by omega) (by omega)
      have hadj := (chain'_iff_getElemOpt.mp hchain) pr.1 pr.2 e2 hq1 he2
      rcases hadj with hbad | ⟨_, hgood | ⟨htoned, _⟩⟩
      · exfalso
        rw [isTonedO_eq_not, hbad] at he2t
        cases he2t
      · exact hgood
      · exfalso
        rw [isTonedO_eq_not, h2] at htoned
        cases htoned

/-- A sample fully-qualified toneless base record for the generator. -/
def gBase : GenEmoji :=
  { emoji := "👍", name := "thumbs up", unicode_version := (6, 0),
    status := Status.FullyQualified, skin_tones := 1, skin_tone := none,
    variations := [] }

/-- A sample light-toned family member for the generator. -/
def gLight : GenEmoji :=
  { emoji := "👍🏻", name := "thumbs up: light skin tone",
    unicode_version := (8, 0), status := Status.FullyQualified,
    skin_tones := 1, skin_tone := some SkinTone.Light, variations := [] }

/-- A sample medium-toned family member for the generator. -/
def gMedium : GenEmoji :=
  { emoji := "👍🏽", name := "thumbs up: medium skin tone",
    unicode_version := (8, 0), status := Status.FullyQualified,
    skin_tones := 1, skin_tone := some SkinTone.Medium, variations := [] }

/-- The subgroup vector built from the three sample records: the base is
back-filled to tone `Default` with count 3 and the toned members follow in
tone order. -/
def gBuilt : List GenEmoji :=
  [{ gBase with skin_tone := some SkinTone.Default, skin_tones := 3 },
   gLight, gMedium]

/-- Witness for C5 on the concrete three-record subgroup. -/
theorem c5_base_index_witness :
    buildSubgroup [gBase, gLight, gMedium] = some gBuilt ∧
    gBuilt[2]? = some gMedium ∧
    (∃ q, baseIndexOf gBuilt 2 = some q ∧ q ≤ 2 ∧
      (∃ d, gBuilt[q]? = some d ∧ isDefaultOrNone d.skin_tone = true ∧
        (q = 2 ∨ d.skin_tone = some SkinTone.Default)) ∧
      (∀ r, q < r → r ≤ 2 → ∃ e2, gBuilt[r]? = some e2 ∧
        isTonedO e2.skin_tone = true)) :=
  ⟨by decide, by decide,
    c5_base_index [gBase, gLight, gMedium] gBuilt (by decide) 2 gMedium (by decide)⟩

/-- `impl PartialEq<Emoji> for Emoji` from `lib.rs`: compares only the
`emoji` sequence string. -/
def emojiEq (a b : Emoji) : Bool :=
  a.emoji == b.emoji

/-- `impl PartialEq<str> for Emoji` from `lib.rs`: `self.as_str() == s`. -/
def emojiEqStr (a : Emoji) (s : String) : Bool :=
  a.emoji == s

/-- `impl Hash for Emoji` from `lib.rs`: only `self.emoji` is fed to the
hasher, modelled as applying the hasher to the sequence string. -/
def emojiHash (h : String → Nat) (e : Emoji) : Nat :=
  h e.emoji

/-- Claim C10: equality, hashing and string comparison of `Emoji` values
are determined solely by the sequence string: two `Emoji` values compare
equal iff their sequences are equal (all other fields are ignored), an
`Emoji` equals a `str` exactly when its sequence equals that string, and
equal emojis hash identically under every hasher. -/
theorem c10_eq_by_sequence :
    ∀ a b : Emoji,
      (emojiEq a b = true ↔ a.emoji = b.emoji) ∧
      (∀ s, emojiEqStr a s = true ↔ a.emoji = s) ∧
      (∀ h : String → Nat, emojiEq a b = true → emojiHash h a = emojiHash h b) ∧
      (∀ s n₁ v₁ g₁ st₁ al₁ n₂ v₂ g₂ st₂ al₂,
        emojiEq ⟨s, n₁, v₁, g₁, st₁, al₁⟩ ⟨s, n₂, v₂, g₂, st₂, al₂⟩ = true) := by
  intro a b
  refine ⟨beq_iff_eq, fun s => beq_iff_eq, fun h hab => ?_, ?_⟩
  · have : a.emoji = b.emoji := by simpa [emojiEq] using hab
    simp [emojiHash, this]
  · intro s _ _ _ _ _ _ _ _ _ _
    simp [emojiEq]

end Emojis
